import Mathlib

/-!
Verification of the diff-and-history engine of the sitemap-diff repository
(src/differ.py and src/reporter.py), as a shallow embedding in Lean.

Python strings are modelled as `String`/`List Char`, Python sets of strings
as `Finset String`, Python dicts as insertion-ordered association lists,
pandas DataFrames at the record level (column names plus rows of string
fields; the spec treats CSV serialization as mechanical), and the file
system as explicit lists of directory entries.  Fallible Python code
(statements that can raise) is modelled with `Option`/`Except`.
-/


/-! ## Definitions -/

/-- Python string comparison `s <= t`: lexicographic by code point. -/
def pyStrLe : List Char → List Char → Bool
  | [], _ => true
  | _ :: _, [] => false
  | a :: s, b :: t =>
    if a.toNat < b.toNat then true
    else if b.toNat < a.toNat then false
    else pyStrLe s t

/-- ASCII whitespace, as stripped by Python `int()` before parsing. -/
def isPyWs (c : Char) : Bool :=
  c = ' ' || c = '\t' || c = '\n' || c = '\r' || c = Char.ofNat 11 || c = Char.ofNat 12

/-- Strip leading and trailing whitespace. -/
def stripWs (l : List Char) : List Char :=
  ((l.dropWhile isPyWs).reverse.dropWhile isPyWs).reverse

/-- Parse a digit run as Python `int()` does after the optional sign:
digits with single underscores allowed only between digits.  `lastU` is
true when the previous character was an underscore (or at the start). -/
def pyDigitsVal : Nat → Bool → List Char → Option Nat
  | acc, lastU, [] => if lastU then none else some acc
  | acc, lastU, c :: rest =>
    if c = '_' then
      if lastU then none else pyDigitsVal acc true rest
    else if c.isDigit then
      pyDigitsVal (acc * 10 + (c.toNat - 48)) false rest
    else none

/-- Model of Python `int(s)` on ASCII strings: strip whitespace, optional
sign, decimal digits with underscores between digits; `none` models a
raised `ValueError`. -/
def pyInt (s : String) : Option Int :=
  match stripWs s.data with
  | '+' :: rest => (pyDigitsVal 0 true rest).map Int.ofNat
  | '-' :: rest => (pyDigitsVal 0 true rest).map (fun n => -(n : Int))
  | rest => (pyDigitsVal 0 true rest).map Int.ofNat

/-- Insert into a sorted list, before the first element not below `a`
(ties keep the existing element first, as in a stable sort). -/
def insertLe (le : α → α → Bool) (a : α) : List α → List α
  | [] => [a]
  | b :: l => if le a b then a :: b :: l else b :: insertLe le a l

/-- Stable sort; models Python `sorted` (Python's sort is stable). -/
def sortLe (le : α → α → Bool) : List α → List α
  | [] => []
  | a :: l => insertLe le a (sortLe le l)

/-- The decimal digit characters, as produced by Python `str` on digits. -/
def digitCh : Nat → Char
  | 0 => '0' | 1 => '1' | 2 => '2' | 3 => '3' | 4 => '4'
  | 5 => '5' | 6 => '6' | 7 => '7' | 8 => '8' | 9 => '9'
  | _ => '*'

/-- Decimal digit test by code point (ASCII '0'..'9'). -/
def isDigitCh (c : Char) : Bool := decide (48 ≤ c.toNat) && decide (c.toNat ≤ 57)

/-- Decimal rendering with explicit fuel (structural recursion). -/
def natDigitsLen : Nat → Nat → List Char
  | 0, _ => []
  | fuel + 1, n =>
    if n < 10 then [digitCh n]
    else natDigitsLen fuel (n / 10) ++ [digitCh (n % 10)]

/-- Decimal rendering of a natural number, as Python `str(n)`:
most significant digit first, no leading zeros. -/
def natDigits (n : Nat) : List Char := natDigitsLen (n + 1) n

/-- Two-digit zero-padded rendering, as `strftime` `%M`, `%S`, `%m`, ... -/
def pad2 (n : Nat) : List Char :=
  if n < 10 then '0' :: natDigits n else natDigits n

/-- Python `str.lstrip('0')`. -/
def lstrip0 (l : List Char) : List Char := l.dropWhile (fun c => c = '0')

/-- Python `str.replace('/0', '/')`: leftmost non-overlapping occurrences. -/
def replaceSlashZero : List Char → List Char
  | [] => []
  | [c] => [c]
  | c₁ :: c₂ :: rest =>
    if c₁ = '/' ∧ c₂ = '0' then '/' :: replaceSlashZero rest
    else c₁ :: replaceSlashZero (c₂ :: rest)

/-- Numeric value of a digit string (big-endian), used to state numeric
ordering of directory names. -/
def digitsValue (l : List Char) : Nat :=
  l.foldl (fun a c => a * 10 + (c.toNat - 48)) 0

/-- `class UrlStatus(Enum)` from src/differ.py. -/
inductive UrlStatus
  | NEW
  | DELETED
deriving DecidableEq

/-- `UrlStatus.value`: the string payload of each enum member. -/
def UrlStatus.value : UrlStatus → String
  | .NEW => "new"
  | .DELETED => "deleted"

/-- `class UrlDiff(NamedTuple)` from src/differ.py: result of comparing
URL sets between runs. -/
structure UrlDiff where
  new_urls : Finset String
  deleted_urls : Finset String
deriving DecidableEq

/-- `find_url_differences(current_urls, prev_urls)` from src/differ.py:
Python set difference on both sides. -/
def find_url_differences (current_urls prev_urls : Finset String) : UrlDiff :=
  { new_urls := current_urls \ prev_urls
    deleted_urls := prev_urls \ current_urls }

/-- A civil (calendar wall-clock) datetime, the result of
`datetime.fromtimestamp(...)` conversions performed by the Python
`datetime` library (an external collaborator per the spec). -/
structure CivilDT where
  year : Nat
  month : Nat
  day : Nat
  hour : Nat
  minute : Nat
  second : Nat
deriving DecidableEq

/-- The invariant the `datetime` library guarantees for every
successfully constructed datetime value. -/
def CivilDT.Valid (dt : CivilDT) : Prop :=
  1 ≤ dt.month ∧ dt.month ≤ 12 ∧ 1 ≤ dt.day ∧ dt.day ≤ 31 ∧
    dt.hour ≤ 23 ∧ dt.minute ≤ 59 ∧ dt.second ≤ 59

instance (dt : CivilDT) : Decidable dt.Valid := by
  unfold CivilDT.Valid
  infer_instance

/-- Proleptic-Gregorian date from a day count since 1970-01-01
(the standard civil-from-days algorithm, with floor division as in
Python's calendar arithmetic).  Years before 1 AD are clamped; Python
raises there. -/
def civilFromDays (z : Int) : Nat × Nat × Nat :=
  let z2 := z + 719468
  let era := Int.fdiv z2 146097
  let doe := (z2 - era * 146097).toNat
  let yoe := (doe - doe / 1460 + doe / 36524 - doe / 146096) / 365
  let y := (era * 400 + yoe : Int)
  let doy := doe - (365 * yoe + yoe / 4 - yoe / 100)
  let mp := (5 * doy + 2) / 153
  let d := doy - (153 * mp + 2) / 5 + 1
  let m := if mp < 10 then mp + 3 else mp - 9
  (if m ≤ 2 then (y + 1).toNat else y.toNat, m, d)

/-- Civil local datetime of an epoch-seconds value, for a local timezone
at fixed offset `tz` seconds east of UTC.  Models the library calls
`datetime.fromtimestamp(ts, tz=utc).astimezone()` in src/differ.py
(and the naive `datetime.fromtimestamp(ts)` in src/reporter.py). -/
def epochToCivil (tz epoch : Int) : CivilDT :=
  let t := epoch + tz
  let days := Int.fdiv t 86400
  let sod := (Int.fmod t 86400).toNat
  let ymd := civilFromDays days
  { year := ymd.1, month := ymd.2.1, day := ymd.2.2
    hour := sod / 3600, minute := sod % 3600 / 60, second := sod % 60 }

/-- `strftime` `%I`/`%-I`: 12-hour clock value, 1..12. -/
def hour12 (h : Nat) : Nat := if h % 12 = 0 then 12 else h % 12

/-- `strftime` `%p`: meridiem suffix, upper case. -/
def meridiem (h : Nat) : List Char := if h < 12 then ['A', 'M'] else ['P', 'M']

/-- `format_timestamp`, Unix branch (src/differ.py lines 122-124):
`dt.strftime("%-m/%-d/%Y")` and `dt.strftime("%-I:%M:%S%p").lower()`.
`%-m`, `%-d`, `%-I` suppress zero padding; `%Y` renders the year
unpadded (glibc behavior; four digits for years 1000-9999). -/
def formatTimestampUnix (dt : CivilDT) : List Char :=
  (natDigits dt.month ++ '/' :: natDigits dt.day ++ '/' :: natDigits dt.year)
    ++ ' ' ::
    ((natDigits (hour12 dt.hour) ++ ':' :: pad2 dt.minute ++ ':' :: pad2 dt.second
      ++ meridiem dt.hour).map Char.toLower)

/-- `format_timestamp`, Windows branch (src/differ.py lines 127-129):
`%#m`, `%#d`, `%#I` are the Windows spellings of "no padding", so the
composition is the same as the Unix branch. -/
def formatTimestampWindows (dt : CivilDT) : List Char :=
  (natDigits dt.month ++ '/' :: natDigits dt.day ++ '/' :: natDigits dt.year)
    ++ ' ' ::
    ((natDigits (hour12 dt.hour) ++ ':' :: pad2 dt.minute ++ ':' :: pad2 dt.second
      ++ meridiem dt.hour).map Char.toLower)

/-- `format_timestamp`, last-resort branch (src/differ.py lines 131-133):
`strftime("%m/%d/%Y").replace('/0', '/').lstrip('0')` and
`strftime("%I:%M:%S%p").lower().lstrip('0')`. -/
def formatTimestampFallback (dt : CivilDT) : List Char :=
  lstrip0 (replaceSlashZero
      (pad2 dt.month ++ '/' :: pad2 dt.day ++ '/' :: natDigits dt.year))
    ++ ' ' ::
    lstrip0 ((pad2 (hour12 dt.hour) ++ ':' :: pad2 dt.minute ++ ':' :: pad2 dt.second
      ++ meridiem dt.hour).map Char.toLower)

/-- `format_timestamp(unix_timestamp)` from src/differ.py, on a host
whose `strftime` accepts `%-m` (the Unix branch; the other branches are
proved equal on the claims' domain).  `none` models the `ValueError`
raised by `int(...)` on a non-numeric argument. -/
def format_timestamp (tz : Int) (unix_timestamp : String) : Option String :=
  (pyInt unix_timestamp).map fun n => ⟨formatTimestampUnix (epochToCivil tz n)⟩

/-- A pandas DataFrame at the record level: column names and rows of
string fields (the spec treats CSV serialization as mechanical, so a
written CSV file is identified with its record content). -/
structure DataFrame where
  columns : List String
  rows : List (List String)
deriving DecidableEq

/-- Column lookup, `df[name]`: `none` models a raised `KeyError`. -/
def getColumn (df : DataFrame) (name : String) : Option (List String) :=
  (df.columns.findIdx? (· == name)).map fun i => df.rows.map (fun r => r.getD i "")

/-- A sitemap node as consumed by `extract_url_map`: its own URL and the
URLs of the pages it lists (`node.all_pages()`). -/
structure SitemapNode where
  url : String
  pages : List String

/-- One assignment `d[k] = v` on a Python dict modelled as an
insertion-ordered association list: overwrite in place if the key is
present, else append. -/
def dictInsert (d : List (String × String)) (k v : String) : List (String × String) :=
  if d.any (fun p => p.1 = k) then
    d.map (fun p => if p.1 = k then (k, v) else p)
  else d ++ [(k, v)]

/-- Python dict lookup `d[k]` as an `Option`. -/
def dictLookup (d : List (String × String)) (k : String) : Option String :=
  (d.find? (fun p => p.1 = k)).map (·.2)

/-- `extract_url_map(nodes)` from src/differ.py: the dict comprehension
`{page.url: node.url for node in nodes for page in node.all_pages()}`,
which evaluates the pairs in order and assigns each into the dict. -/
def extract_url_map (nodes : List SitemapNode) : List (String × String) :=
  (nodes.flatMap fun node => node.pages.map fun page => (page, node.url)).foldl
    (fun d kv => dictInsert d kv.1 kv.2) []

/-- `save_urls_csv(url_map, out_dir)` from src/differ.py: with an empty
map, log a warning and write nothing (`none`); otherwise write
`urls.csv` with one `url,source` row per entry, in dict order. -/
def save_urls_csv (url_map : List (String × String)) : Option DataFrame :=
  if url_map.isEmpty then none
  else some
    { columns := ["url", "source"]
      rows := url_map.map fun p => [p.1, p.2] }

/-- `load_previous_urls(csv_path)` from src/differ.py: the outcome of
`pd.read_csv` is the argument (`Except.error` models any raised parse
failure, including a missing file); `set(df['url'])` raises `KeyError`
when the column is missing, and every exception is caught and turned
into the empty set. -/
def load_previous_urls (readResult : Except String DataFrame) : Finset String :=
  match readResult with
  | .error _ => ∅
  | .ok df =>
    match getColumn df "url" with
    | none => ∅
    | some col => col.toFinset

/-- The String linear order used for serialization ordering (Lean's
`String` order is lexicographic by code point, as Python's). -/
def sortedUrls (s : Finset String) : List String := s.sort (· ≤ ·)

/-- `save_diff_csv(url_diff, out_dir, prev_timestamp, current_timestamp)`
from src/differ.py: format both timestamps, build the `new` rows from
`sorted(url_diff.new_urls)` followed by the `deleted` rows from
`sorted(url_diff.deleted_urls)`, and write a DataFrame with the fixed
column list (preserved even when there are no rows).  `none` models the
`ValueError` from `int(...)` inside `format_timestamp` on a non-numeric
timestamp. -/
def save_diff_csv (tz : Int) (url_diff : UrlDiff)
    (prev_timestamp current_timestamp : String) : Option DataFrame :=
  match format_timestamp tz prev_timestamp, format_timestamp tz current_timestamp with
  | some prev_time_fmt, some current_time_fmt =>
    some
      { columns := ["status", "url", "previous_scan_time", "current_scan_time"]
        rows :=
          (sortedUrls url_diff.new_urls).map
            (fun url => [UrlStatus.NEW.value, url, prev_time_fmt, current_time_fmt])
          ++ (sortedUrls url_diff.deleted_urls).map
            (fun url => [UrlStatus.DELETED.value, url, prev_time_fmt, current_time_fmt]) }
  | _, _ => none

/-- An entry of a site's domain directory as seen by
`find_latest_previous_run` (`domain_dir.glob('*')` plus `is_dir`). -/
structure DirEnt where
  name : String
  isDir : Bool
deriving DecidableEq

/-- The candidate runs of `find_latest_previous_run`: directories whose
name parses as an integer, minus the current run's own directory. -/
def runCandidates (entries : List DirEnt) (timestamp : String) : List DirEnt :=
  ((entries.filter (fun d => d.isDir)).filter
      (fun d => (pyInt d.name).isSome)).filter
    (fun d => d.name ≠ timestamp)

/-- Sort key of `find_latest_previous_run`: `int(d.name)` (always defined
on the candidates, which were filtered for parseability). -/
def runKey (d : DirEnt) : Int := (pyInt d.name).getD 0

/-- `find_latest_previous_run(domain_dir, timestamp)` from src/differ.py:
keep numeric-named subdirectories, drop the entry equal to the current
timestamp, sort ascending by integer value (Python's stable sort), and
return the last element, or `none` when no candidate remains. -/
def find_latest_previous_run (entries : List DirEnt) (timestamp : String) :
    Option String :=
  (sortLe (fun a b => decide (runKey a ≤ runKey b))
      (runCandidates entries timestamp)).getLast?.map (·.name)

/-- An entry of the domain directory as seen by src/reporter.py: its
name, whether it is a directory, whether it contains a `diff.csv`, and
the outcome of reading that `diff.csv` (`Except.error` models a raised
pandas parse failure). -/
structure RunDir where
  name : String
  isDir : Bool
  hasDiff : Bool
  diffData : Except String DataFrame

/-- `find_all_diffs(domain_dir)` from src/reporter.py: iterate
`sorted(domain_dir.glob('*'))` (paths with a common parent sort by name,
lexicographically by code point), skip non-directories, keep entries
that have a `diff.csv`. -/
def find_all_diffs (entries : List RunDir) : List RunDir :=
  ((sortLe (fun a b => pyStrLe a.name.data b.name.data) entries).filter
      (fun e => e.isDir)).filter
    (fun e => e.hasDiff)

/-- `read_diff_data(diff_path)` from src/reporter.py: return the parsed
DataFrame, or an empty DataFrame with the diff columns when reading
fails. -/
def read_diff_data (e : RunDir) : DataFrame :=
  match e.diffData with
  | .ok df => df
  | .error _ =>
    { columns := ["status", "url", "previous_scan_time", "current_scan_time"]
      rows := [] }

/-- One per-run record of the aggregate (the `run_data` dict built in
`aggregate_diff_data`). -/
structure RunData where
  timestamp : String
  formatted_timestamp : String
  new_count : Nat
  deleted_count : Nat
  has_changes : Bool
deriving DecidableEq

/-- The `aggregate_data` dict of `aggregate_diff_data`, with the nested
`chart_data` dict flattened into the three parallel lists. -/
structure Aggregate where
  runs : List RunData
  total_added : Nat
  total_deleted : Nat
  chart_timestamps : List String
  chart_added : List Nat
  chart_deleted : List Nat
deriving DecidableEq

/-- The initial `aggregate_data` value. -/
def initAgg : Aggregate :=
  { runs := [], total_added := 0, total_deleted := 0
    chart_timestamps := [], chart_added := [], chart_deleted := [] }

/-- `strftime('%Y-%m-%d %H:%M:%S')` of a civil datetime, as used for the
display timestamp in src/reporter.py. -/
def isoFmt (dt : CivilDT) : String :=
  ⟨natDigits dt.year ++ '-' :: pad2 dt.month ++ '-' :: pad2 dt.day
    ++ ' ' :: pad2 dt.hour ++ ':' :: pad2 dt.minute ++ ':' :: pad2 dt.second⟩

/-- The body of the `for timestamp_dir, diff_path in all_diffs` loop of
`aggregate_diff_data`: count `new` and `deleted` rows, format the
timestamp, append the run record, bump the totals, extend the chart
series.  `none` models the exceptions the body can raise (`KeyError` on
a frame without a `status` column, `ValueError` from `int(timestamp)`). -/
def aggStep (tz : Int) (acc : Aggregate) (e : RunDir) : Option Aggregate :=
  match pyInt e.name, getColumn (read_diff_data e) "status" with
  | some n, some statusCol =>
    let new_count := (statusCol.filter (fun s => s = "new")).length
    let deleted_count := (statusCol.filter (fun s => s = "deleted")).length
    let formatted := isoFmt (epochToCivil tz n)
    some
      { runs := acc.runs ++
          [{ timestamp := e.name, formatted_timestamp := formatted
             new_count := new_count, deleted_count := deleted_count
             has_changes := decide (0 < new_count ∨ 0 < deleted_count) }]
        total_added := acc.total_added + new_count
        total_deleted := acc.total_deleted + deleted_count
        chart_timestamps := acc.chart_timestamps ++ [formatted]
        chart_added := acc.chart_added ++ [new_count]
        chart_deleted := acc.chart_deleted ++ [deleted_count] }
  | _, _ => none

/-- The loop of `aggregate_diff_data`, processing the runs in order. -/
def aggLoop (tz : Int) (acc : Aggregate) : List RunDir → Option Aggregate
  | [] => some acc
  | e :: rest => (aggStep tz acc e).bind (fun acc2 => aggLoop tz acc2 rest)

/-- `aggregate_diff_data(all_diffs)` from src/reporter.py. -/
def aggregate_diff_data (tz : Int) (all_diffs : List RunDir) : Option Aggregate :=
  aggLoop tz initAgg all_diffs

/-- The `'runs'` entry of the template context in
`generate_index_report` (src/reporter.py line 557):
`list(reversed(aggregate_data['runs']))`, most recent first. -/
def generate_index_report_runs (aggregate_data : Aggregate) : List RunData :=
  aggregate_data.runs.reverse

/-- The per-run counts used to state the aggregation claims: number of
rows of a run's diff whose `status` is the given string. -/
def countStatus (e : RunDir) (s : String) : Nat :=
  (((getColumn (read_diff_data e) "status").getD []).filter (fun x => x = s)).length

/-- Consume a greedy run of 1-2 digits without a leading zero (the
`\x7bd{1,2}` groups of the claimed shape, which must also carry "no
leading zeros"). -/
def expectNum (l : List Char) : Option (List Char) :=
  let d := l.takeWhile isDigitCh
  if 1 ≤ d.length ∧ d.length ≤ 2 ∧ d.head? ≠ some '0' then
    some (l.dropWhile isDigitCh)
  else none

/-- Consume a greedy run of exactly 2 digits (zero-padded groups). -/
def expectPad2 (l : List Char) : Option (List Char) :=
  if (l.takeWhile isDigitCh).length = 2 then
    some (l.dropWhile isDigitCh)
  else none

/-- Consume a greedy run of exactly 4 digits (the year group). -/
def expectYear4 (l : List Char) : Option (List Char) :=
  if (l.takeWhile isDigitCh).length = 4 then
    some (l.dropWhile isDigitCh)
  else none

/-- Consume one expected literal character. -/
def expectChar (c : Char) : List Char → Option (List Char)
  | x :: r => if x = c then some r else none
  | [] => none

/-- Consume a lowercase meridiem suffix. -/
def expectMeridiem : List Char → Option (List Char)
  | 'a' :: 'm' :: r => some r
  | 'p' :: 'm' :: r => some r
  | _ => none

/-- Whether a rendered timestamp matches the documented shape
`M/D/YYYY H:MM:SSam|pm`: the regex
`\x7bd{1,2}/\x7bd{1,2}/\x7bd{4} \x7bd{1,2}:\x7bd{2}:\x7bd{2}(am|pm)`
anchored at both ends, with no leading zeros on month, day, or hour and
a lowercase meridiem suffix. -/
def matchesShape (l : List Char) : Bool :=
  (((((((((((expectNum l).bind (expectChar '/')).bind expectNum).bind
    (expectChar '/')).bind expectYear4).bind (expectChar ' ')).bind
    expectNum).bind (expectChar ':')).bind expectPad2).bind
    (expectChar ':')).bind expectPad2).bind expectMeridiem = some []

/-- Lowercased meridiem suffix: what `.lower()` makes of `%p`. -/
def meridiemLower (h : Nat) : List Char := if h < 12 then ['a', 'm'] else ['p', 'm']

/-- The per-run record `aggregate_diff_data` builds for one run, written
as a function of the run entry (used to state the loop invariant). -/
def mkRunData (tz : Int) (e : RunDir) : RunData :=
  { timestamp := e.name
    formatted_timestamp := isoFmt (epochToCivil tz ((pyInt e.name).getD 0))
    new_count := countStatus e "new"
    deleted_count := countStatus e "deleted"
    has_changes := decide (0 < countStatus e "new" ∨ 0 < countStatus e "deleted") }

/-- The claim's three-run example: diffs with (2 new, 1 deleted),
(0, 0) and (1 new, 3 deleted) rows. -/
def exampleRuns : List RunDir :=
  [{ name := "100", isDir := true, hasDiff := true
     diffData := Except.ok
       { columns := ["status", "url", "previous_scan_time", "current_scan_time"]
         rows := [["new", "https://a/1", "t0", "t1"],
                  ["new", "https://a/2", "t0", "t1"],
                  ["deleted", "https://a/3", "t0", "t1"]] } },
   { name := "200", isDir := true, hasDiff := true
     diffData := Except.ok
       { columns := ["status", "url", "previous_scan_time", "current_scan_time"]
         rows := [] } },
   { name := "300", isDir := true, hasDiff := true
     diffData := Except.ok
       { columns := ["status", "url", "previous_scan_time", "current_scan_time"]
         rows := [["new", "https://a/4", "t1", "t2"],
                  ["deleted", "https://a/5", "t1", "t2"],
                  ["deleted", "https://a/6", "t1", "t2"],
                  ["deleted", "https://a/7", "t1", "t2"]] } }]

/-- The two-directory example with names of different digit lengths. -/
def exampleTwoRuns : List RunDir :=
  [{ name := "9", isDir := true, hasDiff := true
     diffData := Except.ok
       { columns := ["status", "url", "previous_scan_time", "current_scan_time"]
         rows := [] } },
   { name := "10", isDir := true, hasDiff := true
     diffData := Except.ok
       { columns := ["status", "url", "previous_scan_time", "current_scan_time"]
         rows := [] } }]


/-! ## Lemmas and claim theorems -/

theorem pyStrLe_total : ∀ s t, pyStrLe s t = true ∨ pyStrLe t s = true := by
  intro s
  induction s with
  | nil => intro t; left; rfl
  | cons a s ih =>
    intro t
    cases t with
    | nil => right; rfl
    | cons b t =>
      rcases Nat.lt_trichotomy a.toNat b.toNat with h | h | h
      · left; simp [pyStrLe, h]
      · have h2 : ¬ a.toNat < b.toNat := by omega
        have h3 : ¬ b.toNat < a.toNat := by omega
        simp only [pyStrLe, if_neg h2, if_neg h3]
        exact ih t
      · right; simp [pyStrLe, h]

theorem pyStrLe_cons_iff (a b : Char) (r s : List Char) :
    pyStrLe (a :: r) (b :: s) = true ↔
      a.toNat < b.toNat ∨ (a.toNat = b.toNat ∧ pyStrLe r s = true) := by
  simp only [pyStrLe]
  by_cases h1 : a.toNat < b.toNat
  · simp [h1]
  · by_cases h2 : b.toNat < a.toNat
    · simp only [if_neg h1, if_pos h2]
      constructor
      · intro h; exact absurd h (by simp)
      · intro h
        rcases h with h | ⟨h, _⟩ <;> omega
    · have he : a.toNat = b.toNat := by omega
      simp [h1, h2, he]

theorem pyStrLe_trans :
    ∀ r s t, pyStrLe r s = true → pyStrLe s t = true → pyStrLe r t = true := by
  intro r
  induction r with
  | nil => intro s t _ _; rfl
  | cons a r ih =>
    intro s t hrs hst
    cases s with
    | nil => simp [pyStrLe] at hrs
    | cons b s =>
      cases t with
      | nil => simp [pyStrLe] at hst
      | cons c t =>
        rcases (pyStrLe_cons_iff a b r s).mp hrs with h1 | ⟨h1, h1p⟩ <;>
          rcases (pyStrLe_cons_iff b c s t).mp hst with h2 | ⟨h2, h2p⟩
        · exact (pyStrLe_cons_iff a c r t).mpr (Or.inl (by omega))
        · exact (pyStrLe_cons_iff a c r t).mpr (Or.inl (by omega))
        · exact (pyStrLe_cons_iff a c r t).mpr (Or.inl (by omega))
        · exact (pyStrLe_cons_iff a c r t).mpr
            (Or.inr ⟨by omega, ih s t h1p h2p⟩)

theorem mem_insertLe (le : α → α → Bool) (a x : α) :
    ∀ l, x ∈ insertLe le a l ↔ x = a ∨ x ∈ l := by
  intro l
  induction l with
  | nil => simp [insertLe]
  | cons b l ih =>
    by_cases h : le a b = true
    · simp [insertLe, h]
    · simp only [insertLe, if_neg h, List.mem_cons, ih]
      tauto

theorem mem_sortLe (le : α → α → Bool) (x : α) :
    ∀ l, x ∈ sortLe le l ↔ x ∈ l := by
  intro l
  induction l with
  | nil => simp [sortLe]
  | cons a l ih => simp [sortLe, mem_insertLe, ih]

theorem length_insertLe (le : α → α → Bool) (a : α) :
    ∀ l, (insertLe le a l).length = l.length + 1 := by
  intro l
  induction l with
  | nil => rfl
  | cons b l ih =>
    by_cases h : le a b = true
    · simp [insertLe, h]
    · simp [insertLe, h, ih]

theorem length_sortLe (le : α → α → Bool) :
    ∀ l, (sortLe le l).length = l.length := by
  intro l
  induction l with
  | nil => rfl
  | cons a l ih => simp [sortLe, length_insertLe, ih]

theorem pairwise_insertLe (le : α → α → Bool)
    (total : ∀ a b, le a b = true ∨ le b a = true)
    (trans : ∀ a b c, le a b = true → le b c = true → le a c = true)
    (a : α) :
    ∀ l, l.Pairwise (fun x y => le x y = true) →
      (insertLe le a l).Pairwise (fun x y => le x y = true) := by
  intro l
  induction l with
  | nil => intro _; simp [insertLe]
  | cons b l ih =>
    intro hp
    rcases List.pairwise_cons.mp hp with ⟨hb, hl⟩
    by_cases h : le a b = true
    · simp only [insertLe, if_pos h]
      refine List.pairwise_cons.mpr ⟨?_, hp⟩
      intro x hx
      rcases List.mem_cons.mp hx with hx | hx
      · subst hx; exact h
      · exact trans a b x h (hb x hx)
    · have hba : le b a = true := by
        rcases total a b with h1 | h1
        · exact absurd h1 h
        · exact h1
      simp only [insertLe, if_neg h]
      refine List.pairwise_cons.mpr ⟨?_, ih hl⟩
      intro x hx
      rcases (mem_insertLe le a x l).mp hx with hx | hx
      · subst hx; exact hba
      · exact hb x hx

theorem pairwise_sortLe (le : α → α → Bool)
    (total : ∀ a b, le a b = true ∨ le b a = true)
    (trans : ∀ a b c, le a b = true → le b c = true → le a c = true) :
    ∀ l, (sortLe le l).Pairwise (fun x y => le x y = true) := by
  intro l
  induction l with
  | nil => simp [sortLe]
  | cons a l ih => exact pairwise_insertLe le total trans a _ ih

theorem pairwise_le_getLast {le : α → α → Bool}
    (refl : ∀ a, le a a = true) :
    ∀ (l : List α) (h : l ≠ []),
      l.Pairwise (fun x y => le x y = true) →
      ∀ x ∈ l, le x (l.getLast h) = true := by
  intro l
  induction l with
  | nil => intro h; exact absurd rfl h
  | cons a l ih =>
    intro _ hp x hx
    rcases List.pairwise_cons.mp hp with ⟨ha, hl⟩
    cases l with
    | nil =>
      have hx2 : x = a := by simpa using hx
      subst hx2
      simpa [List.getLast] using refl x
    | cons b t =>
      rw [List.getLast_cons (by simp)]
      rcases List.mem_cons.mp hx with hx | hx
      · subst hx
        exact ha _ (List.getLast_mem (by simp))
      · exact ih (by simp) hl x hx

theorem natDigitsLen_irrel : ∀ f₁ f₂ n, n < f₁ → n < f₂ →
    natDigitsLen f₁ n = natDigitsLen f₂ n := by
  intro f₁
  induction f₁ with
  | zero => intro f₂ n h; omega
  | succ g ih =>
    intro f₂ n h1 h2
    cases f₂ with
    | zero => omega
    | succ g₂ =>
      by_cases h10 : n < 10
      · simp [natDigitsLen, h10]
      · have hd : n / 10 < n := Nat.div_lt_self (by omega) (by omega)
        simp only [natDigitsLen, if_neg h10]
        rw [ih g₂ (n / 10) (by omega) (by omega)]

theorem natDigitsLen_eq (fuel n : Nat) (h : n < fuel) :
    natDigitsLen fuel n = natDigits n :=
  natDigitsLen_irrel fuel (n + 1) n h (Nat.lt_succ_self n)

theorem natDigits_lt10 (n : Nat) (h : n < 10) : natDigits n = [digitCh n] := by
  simp [natDigits, natDigitsLen, h]

theorem natDigits_ge10 (n : Nat) (h : 10 ≤ n) :
    natDigits n = natDigits (n / 10) ++ [digitCh (n % 10)] := by
  have hd : n / 10 < n := Nat.div_lt_self (by omega) (by omega)
  have h1 : natDigits n = natDigitsLen n (n / 10) ++ [digitCh (n % 10)] := by
    simp [natDigits, natDigitsLen, show ¬ n < 10 by omega]
  rw [h1, natDigitsLen_eq n (n / 10) hd]

theorem digitCh_isDigit (k : Nat) (h : k < 10) : isDigitCh (digitCh k) = true := by
  interval_cases k <;> decide

theorem digitCh_ne_zero (k : Nat) (h1 : 1 ≤ k) (h2 : k < 10) : digitCh k ≠ '0' := by
  interval_cases k <;> decide

theorem natDigits_ne_nil (n : Nat) : natDigits n ≠ [] := by
  by_cases h : n < 10
  · rw [natDigits_lt10 n h]; simp
  · rw [natDigits_ge10 n (by omega)]; simp

theorem natDigits_all_digitCh (n : Nat) :
    ∀ c ∈ natDigits n, ∃ k, k < 10 ∧ c = digitCh k := by
  induction n using Nat.strong_induction_on with
  | _ n ih =>
    by_cases h : n < 10
    · rw [natDigits_lt10 n h]
      intro c hc
      exact ⟨n, h, by simpa using hc⟩
    · rw [natDigits_ge10 n (by omega)]
      intro c hc
      rcases List.mem_append.mp hc with hc | hc
      · exact ih (n / 10) (Nat.div_lt_self (by omega) (by omega)) c hc
      · exact ⟨n % 10, Nat.mod_lt n (by omega), by simpa using hc⟩

theorem natDigits_all_isDigit (n : Nat) :
    ∀ c ∈ natDigits n, isDigitCh c = true := by
  intro c hc
  rcases natDigits_all_digitCh n c hc with ⟨k, hk, he⟩
  subst he
  exact digitCh_isDigit k hk

theorem natDigits_head_decomp (n : Nat) (h : 1 ≤ n) :
    ∃ c cs, natDigits n = c :: cs ∧ c ≠ '0' ∧ isDigitCh c = true := by
  induction n using Nat.strong_induction_on with
  | _ n ih =>
    by_cases h10 : n < 10
    · refine ⟨digitCh n, [], natDigits_lt10 n h10, digitCh_ne_zero n h h10, digitCh_isDigit n h10⟩
    · have hd : n / 10 < n := Nat.div_lt_self (by omega) (by omega)
      have h1 : 1 ≤ n / 10 := by
        have h : 10 / 10 ≤ n / 10 := Nat.div_le_div_right (by omega)
        simpa using h
      rcases ih (n / 10) hd h1 with ⟨c, cs, he, hz, hdg⟩
      exact ⟨c, cs ++ [digitCh (n % 10)], by rw [natDigits_ge10 n (by omega), he]; rfl, hz, hdg⟩

theorem natDigits_length_le : ∀ k n, 1 ≤ n → n < 10 ^ k →
    (natDigits n).length ≤ k := by
  intro k
  induction k with
  | zero => intro n h1 h2; omega
  | succ j ih =>
    intro n h1 h2
    by_cases h10 : n < 10
    · rw [natDigits_lt10 n h10]; simp
    · rw [natDigits_ge10 n (by omega)]
      have h3 : 1 ≤ n / 10 := by
        have h : 10 / 10 ≤ n / 10 := Nat.div_le_div_right (by omega)
        simpa using h
      have h4 : n / 10 < 10 ^ j := by
        have : n < 10 ^ j * 10 := by
          calc n < 10 ^ (j + 1) := h2
          _ = 10 ^ j * 10 := by ring
        omega
      have := ih (n / 10) h3 h4
      simp only [List.length_append, List.length_cons, List.length_nil]
      omega

theorem natDigits_length_ge : ∀ k n, 10 ^ k ≤ n →
    k + 1 ≤ (natDigits n).length := by
  intro k
  induction k with
  | zero =>
    intro n _
    have : natDigits n ≠ [] := natDigits_ne_nil n
    have : 0 < (natDigits n).length := List.length_pos.mpr this
    omega
  | succ j ih =>
    intro n h
    have h10 : 10 ≤ n := by
      calc 10 = 10 ^ 1 := by ring
      _ ≤ 10 ^ (j + 1) := Nat.pow_le_pow_right (by omega) (by omega)
      _ ≤ n := h
    rw [natDigits_ge10 n h10]
    have h2 : 10 ^ j ≤ n / 10 := by
      have : 10 ^ j * 10 ≤ n := by
        calc 10 ^ j * 10 = 10 ^ (j + 1) := by ring
        _ ≤ n := h
      omega
    have := ih (n / 10) h2
    simp only [List.length_append, List.length_cons, List.length_nil]
    omega

theorem natDigits_length_two (n : Nat) (h1 : 1 ≤ n) (h2 : n ≤ 99) :
    1 ≤ (natDigits n).length ∧ (natDigits n).length ≤ 2 := by
  constructor
  · have := natDigits_length_ge 0 n (by simpa using h1)
    omega
  · exact natDigits_length_le 2 n h1 (by omega)

theorem natDigits_length_four (y : Nat) (h1 : 1000 ≤ y) (h2 : y ≤ 9999) :
    (natDigits y).length = 4 := by
  have hge := natDigits_length_ge 3 y (by norm_num; omega)
  have hle := natDigits_length_le 4 y (by omega) (by norm_num; omega)
  omega

theorem takeWhile_digits_append (ds : List Char) (x : Char) (r : List Char)
    (hds : ∀ c ∈ ds, isDigitCh c = true) (hx : isDigitCh x = false) :
    (ds ++ x :: r).takeWhile isDigitCh = ds := by
  induction ds with
  | nil => simp [List.takeWhile, hx]
  | cons c cs ih =>
    have hc : isDigitCh c = true := hds c (by simp)
    simp only [List.cons_append, List.takeWhile_cons, hc, if_pos]
    rw [ih (fun d hd => hds d (by simp [hd]))]

theorem dropWhile_digits_append (ds : List Char) (x : Char) (r : List Char)
    (hds : ∀ c ∈ ds, isDigitCh c = true) (hx : isDigitCh x = false) :
    (ds ++ x :: r).dropWhile isDigitCh = x :: r := by
  induction ds with
  | nil => simp [List.dropWhile, hx]
  | cons c cs ih =>
    have hc : isDigitCh c = true := hds c (by simp)
    simp only [List.cons_append, List.dropWhile_cons, hc, if_pos]
    exact ih (fun d hd => hds d (by simp [hd]))

theorem takeWhile_digits_all (ds : List Char)
    (hds : ∀ c ∈ ds, isDigitCh c = true) :
    ds.takeWhile isDigitCh = ds := by
  induction ds with
  | nil => rfl
  | cons c cs ih =>
    have hc : isDigitCh c = true := hds c (by simp)
    simp only [List.takeWhile_cons, hc, if_pos]
    rw [ih (fun d hd => hds d (by simp [hd]))]

theorem dropWhile_digits_all (ds : List Char)
    (hds : ∀ c ∈ ds, isDigitCh c = true) :
    ds.dropWhile isDigitCh = [] := by
  induction ds with
  | nil => rfl
  | cons c cs ih =>
    have hc : isDigitCh c = true := hds c (by simp)
    simp only [List.dropWhile_cons, hc, if_pos]
    exact ih (fun d hd => hds d (by simp [hd]))

theorem lstrip0_cons_zero (l : List Char) : lstrip0 ('0' :: l) = lstrip0 l := by
  simp [lstrip0, List.dropWhile_cons]

theorem lstrip0_cons_ne (c : Char) (l : List Char) (h : c ≠ '0') :
    lstrip0 (c :: l) = c :: l := by
  simp [lstrip0, List.dropWhile_cons, h]

theorem replaceSlashZero_pass (c : Char) (l : List Char) (h : c ≠ '/') :
    replaceSlashZero (c :: l) = c :: replaceSlashZero l := by
  cases l with
  | nil => rfl
  | cons c₂ r =>
    have : ¬ (c = '/' ∧ c₂ = '0') := fun hc => h hc.1
    simp [replaceSlashZero, this]

theorem replaceSlashZero_skip_digits (ds : List Char) (l : List Char)
    (hds : ∀ c ∈ ds, isDigitCh c = true) :
    replaceSlashZero (ds ++ l) = ds ++ replaceSlashZero l := by
  induction ds with
  | nil => rfl
  | cons c cs ih =>
    have hc : isDigitCh c = true := hds c (by simp)
    have hne : c ≠ '/' := by
      intro he
      rw [he] at hc
      exact absurd hc (by decide)
    simp only [List.cons_append]
    rw [replaceSlashZero_pass c _ hne, ih (fun d hd => hds d (by simp [hd]))]

theorem replaceSlashZero_slash_zero (l : List Char) :
    replaceSlashZero ('/' :: '0' :: l) = '/' :: replaceSlashZero l := by
  simp [replaceSlashZero]

theorem replaceSlashZero_slash_ne (c : Char) (l : List Char) (h : c ≠ '0') :
    replaceSlashZero ('/' :: c :: l) = '/' :: replaceSlashZero (c :: l) := by
  simp [replaceSlashZero, h]

theorem replaceSlashZero_nil : replaceSlashZero [] = [] := rfl

theorem toLower_digit (k : Nat) (h : k < 10) :
    Char.toLower (digitCh k) = digitCh k := by
  interval_cases k <;> decide

theorem map_toLower_natDigits (n : Nat) :
    (natDigits n).map Char.toLower = natDigits n := by
  have : ∀ c ∈ natDigits n, Char.toLower c = c := by
    intro c hc
    rcases natDigits_all_digitCh n c hc with ⟨k, hk, he⟩
    subst he
    exact toLower_digit k hk
  calc (natDigits n).map Char.toLower = (natDigits n).map id := List.map_congr_left this
  _ = natDigits n := List.map_id _

theorem natDigits_head_ne_zero (n : Nat) (h : 1 ≤ n) :
    (natDigits n).head? ≠ some '0' := by
  rcases natDigits_head_decomp n h with ⟨c, cs, he, hz, _⟩
  rw [he]
  simpa using hz

theorem pad2_all_digits (n : Nat) : ∀ c ∈ pad2 n, isDigitCh c = true := by
  intro c hc
  by_cases h : n < 10
  · rw [pad2, if_pos h] at hc
    rcases List.mem_cons.mp hc with hc | hc
    · subst hc; decide
    · exact natDigits_all_isDigit n c hc
  · rw [pad2, if_neg h] at hc
    exact natDigits_all_isDigit n c hc

theorem pad2_length (n : Nat) (h : n ≤ 99) : (pad2 n).length = 2 := by
  by_cases h10 : n < 10
  · rw [pad2, if_pos h10, natDigits_lt10 n h10]
    rfl
  · rw [pad2, if_neg h10]
    have hge := natDigits_length_ge 1 n (by omega)
    have hle := natDigits_length_le 2 n (by omega) (by omega)
    omega

theorem map_toLower_pad2 (n : Nat) : (pad2 n).map Char.toLower = pad2 n := by
  by_cases h : n < 10
  · rw [pad2, if_pos h]
    simp only [List.map_cons, map_toLower_natDigits]
    rfl
  · rw [pad2, if_neg h]
    exact map_toLower_natDigits n

theorem map_toLower_meridiem (h : Nat) :
    (meridiem h).map Char.toLower = meridiemLower h := by
  by_cases hlt : h < 12
  · simp [meridiem, meridiemLower, hlt]
  · simp [meridiem, meridiemLower, hlt]

theorem hour12_bounds (h : Nat) : 1 ≤ hour12 h ∧ hour12 h ≤ 12 := by
  unfold hour12
  by_cases hz : h % 12 = 0
  · simp [hz]
  · have : h % 12 < 12 := Nat.mod_lt h (by omega)
    simp [hz]
    omega

theorem expectNum_run (ds : List Char) (x : Char) (r : List Char)
    (hds : ∀ c ∈ ds, isDigitCh c = true) (hx : isDigitCh x = false)
    (h1 : 1 ≤ ds.length) (h2 : ds.length ≤ 2) (h0 : ds.head? ≠ some '0') :
    expectNum (ds ++ x :: r) = some (x :: r) := by
  unfold expectNum
  rw [takeWhile_digits_append ds x r hds hx, dropWhile_digits_append ds x r hds hx]
  simp [h1, h2, h0]

theorem expectPad2_run (ds : List Char) (x : Char) (r : List Char)
    (hds : ∀ c ∈ ds, isDigitCh c = true) (hx : isDigitCh x = false)
    (hlen : ds.length = 2) :
    expectPad2 (ds ++ x :: r) = some (x :: r) := by
  unfold expectPad2
  rw [takeWhile_digits_append ds x r hds hx, dropWhile_digits_append ds x r hds hx]
  simp [hlen]

theorem expectYear4_run (ds : List Char) (x : Char) (r : List Char)
    (hds : ∀ c ∈ ds, isDigitCh c = true) (hx : isDigitCh x = false)
    (hlen : ds.length = 4) :
    expectYear4 (ds ++ x :: r) = some (x :: r) := by
  unfold expectYear4
  rw [takeWhile_digits_append ds x r hds hx, dropWhile_digits_append ds x r hds hx]
  simp [hlen]

theorem expectChar_run (c : Char) (r : List Char) :
    expectChar c (c :: r) = some r := by
  simp [expectChar]

theorem fallback_time_eq (hr mi se : Nat) :
    lstrip0 ((pad2 (hour12 hr) ++ ':' :: pad2 mi ++ ':' :: pad2 se
        ++ meridiem hr).map Char.toLower)
      = (natDigits (hour12 hr) ++ ':' :: pad2 mi ++ ':' :: pad2 se
        ++ meridiem hr).map Char.toLower := by
  rcases hour12_bounds hr with ⟨hh1, hh2⟩
  by_cases h10 : hour12 hr < 10
  · rw [pad2, if_pos h10, natDigits_lt10 _ h10]
    simp only [List.cons_append, List.singleton_append, List.map_cons]
    rw [show Char.toLower '0' = '0' from by decide, toLower_digit _ h10]
    rw [lstrip0_cons_zero, lstrip0_cons_ne _ _ (digitCh_ne_zero _ hh1 h10)]
  · rw [pad2, if_neg h10]
    rcases natDigits_head_decomp (hour12 hr) hh1 with ⟨c, cs, he, hz, hdg⟩
    have hcl : Char.toLower c = c := by
      have hc : c ∈ natDigits (hour12 hr) := by rw [he]; simp
      rcases natDigits_all_digitCh _ c hc with ⟨k, hk, hck⟩
      subst hck
      exact toLower_digit k hk
    rw [he]
    simp only [List.cons_append, List.map_cons, hcl]
    rw [lstrip0_cons_ne _ _ hz]

theorem replaceSlashZero_slash_natDigits (y : Nat) (h : 1 ≤ y) :
    replaceSlashZero ('/' :: natDigits y) = '/' :: natDigits y := by
  rcases natDigits_head_decomp y h with ⟨c, cs, he, hz, _⟩
  rw [he, replaceSlashZero_slash_ne c cs hz]
  have : replaceSlashZero (c :: cs) = c :: cs := by
    have h2 := replaceSlashZero_skip_digits (c :: cs) []
      (by rw [show c :: cs = natDigits y from he.symm]; exact natDigits_all_isDigit y)
    simpa [replaceSlashZero_nil] using h2
  rw [this]

theorem replaceSlashZero_skip_digits_cons (c : Char) (cs l : List Char)
    (h : ∀ x ∈ c :: cs, isDigitCh x = true) :
    replaceSlashZero (c :: (cs ++ l)) = c :: (cs ++ replaceSlashZero l) := by
  have h2 := replaceSlashZero_skip_digits (c :: cs) l h
  simpa using h2

theorem replaceSlashZero_mid (d y : Nat) (hd1 : 1 ≤ d) (hy1 : 1 ≤ y) :
    replaceSlashZero ('/' :: (pad2 d ++ '/' :: natDigits y))
      = '/' :: (natDigits d ++ '/' :: natDigits y) := by
  by_cases hd10 : d < 10
  · rw [pad2, if_pos hd10, natDigits_lt10 d hd10]
    simp only [List.cons_append, List.singleton_append, List.nil_append]
    rw [replaceSlashZero_slash_zero]
    rw [replaceSlashZero_pass (digitCh d) _ (by
      have hdg := digitCh_isDigit d hd10
      intro he
      rw [he] at hdg
      exact absurd hdg (by decide))]
    rw [replaceSlashZero_slash_natDigits y hy1]
  · rw [pad2, if_neg hd10]
    rcases natDigits_head_decomp d hd1 with ⟨c, cs, he, hz, _⟩
    rw [he]
    simp only [List.cons_append]
    rw [replaceSlashZero_slash_ne c _ hz]
    rw [replaceSlashZero_skip_digits_cons c cs ('/' :: natDigits y) (by
      rw [show c :: cs = natDigits d from he.symm]
      exact natDigits_all_isDigit d)]
    rw [replaceSlashZero_slash_natDigits y hy1]

theorem fallback_date_eq (m d y : Nat) (hm1 : 1 ≤ m) (hd1 : 1 ≤ d) (hy1 : 1 ≤ y) :
    lstrip0 (replaceSlashZero (pad2 m ++ '/' :: pad2 d ++ '/' :: natDigits y))
      = natDigits m ++ '/' :: natDigits d ++ '/' :: natDigits y := by
  simp only [List.append_assoc, List.cons_append]
  by_cases hm10 : m < 10
  · rw [pad2, if_pos hm10, natDigits_lt10 m hm10]
    simp only [List.cons_append, List.singleton_append, List.nil_append]
    rw [replaceSlashZero_pass '0' _ (by decide)]
    rw [replaceSlashZero_pass (digitCh m) _ (by
      have hdg := digitCh_isDigit m hm10
      intro he
      rw [he] at hdg
      exact absurd hdg (by decide))]
    rw [replaceSlashZero_mid d y hd1 hy1]
    rw [lstrip0_cons_zero, lstrip0_cons_ne _ _ (digitCh_ne_zero m hm1 hm10)]
  · rw [pad2, if_neg hm10]
    rcases natDigits_head_decomp m hm1 with ⟨c, cs, he, hz, _⟩
    rw [he]
    simp only [List.cons_append]
    rw [replaceSlashZero_skip_digits_cons c cs ('/' :: (pad2 d ++ '/' :: natDigits y)) (by
      rw [show c :: cs = natDigits m from he.symm]
      exact natDigits_all_isDigit m)]
    rw [replaceSlashZero_mid d y hd1 hy1]
    rw [lstrip0_cons_ne _ _ hz]

theorem toLower_colon : Char.toLower ':' = ':' := by decide

theorem matchesShape_format (dt : CivilDT) (hv : dt.Valid)
    (hy1 : 1000 ≤ dt.year) (hy2 : dt.year ≤ 9999) :
    matchesShape (formatTimestampUnix dt) = true := by
  obtain ⟨hm1, hm2, hd1, hd2, hhr, hmi, hse⟩ := hv
  rcases hour12_bounds dt.hour with ⟨hh1, hh2⟩
  have hM := natDigits_all_isDigit dt.month
  have hD := natDigits_all_isDigit dt.day
  have hY := natDigits_all_isDigit dt.year
  have hH := natDigits_all_isDigit (hour12 dt.hour)
  have hMi := pad2_all_digits dt.minute
  have hSe := pad2_all_digits dt.second
  have hMlen := natDigits_length_two dt.month hm1 (by omega)
  have hDlen := natDigits_length_two dt.day hd1 (by omega)
  have hHlen := natDigits_length_two (hour12 dt.hour) hh1 (by omega)
  have hYlen := natDigits_length_four dt.year hy1 hy2
  have hMilen := pad2_length dt.minute (by omega)
  have hSelen := pad2_length dt.second (by omega)
  have hM0 := natDigits_head_ne_zero dt.month hm1
  have hD0 := natDigits_head_ne_zero dt.day hd1
  have hH0 := natDigits_head_ne_zero (hour12 dt.hour) hh1
  have hflat : formatTimestampUnix dt
      = natDigits dt.month ++ '/' :: (natDigits dt.day ++ '/' :: (natDigits dt.year
        ++ ' ' :: (natDigits (hour12 dt.hour) ++ ':' :: (pad2 dt.minute
        ++ ':' :: (pad2 dt.second ++ meridiemLower dt.hour))))) := by
    unfold formatTimestampUnix
    simp only [List.append_assoc, List.cons_append, List.map_append, List.map_cons,
      map_toLower_natDigits, map_toLower_pad2, map_toLower_meridiem, toLower_colon]
  rw [hflat]
  simp only [matchesShape, decide_eq_true_eq]
  rw [expectNum_run _ '/' _ hM (by decide) hMlen.1 hMlen.2 hM0]
  rw [Option.some_bind, expectChar_run, Option.some_bind]
  rw [expectNum_run _ '/' _ hD (by decide) hDlen.1 hDlen.2 hD0]
  rw [Option.some_bind, expectChar_run, Option.some_bind]
  rw [expectYear4_run _ ' ' _ hY (by decide) hYlen]
  rw [Option.some_bind, expectChar_run, Option.some_bind]
  rw [expectNum_run _ ':' _ hH (by decide) hHlen.1 hHlen.2 hH0]
  rw [Option.some_bind, expectChar_run, Option.some_bind]
  rw [expectPad2_run _ ':' _ hMi (by decide) hMilen]
  rw [Option.some_bind, expectChar_run, Option.some_bind]
  by_cases hmer : dt.hour < 12
  · rw [show meridiemLower dt.hour = ['a', 'm'] from by simp [meridiemLower, hmer]]
    rw [show pad2 dt.second ++ ['a', 'm'] = pad2 dt.second ++ 'a' :: ['m'] from rfl]
    rw [expectPad2_run _ 'a' _ hSe (by decide) hSelen]
    rw [Option.some_bind]
    rfl
  · rw [show meridiemLower dt.hour = ['p', 'm'] from by simp [meridiemLower, hmer]]
    rw [show pad2 dt.second ++ ['p', 'm'] = pad2 dt.second ++ 'p' :: ['m'] from rfl]
    rw [expectPad2_run _ 'p' _ hSe (by decide) hSelen]
    rw [Option.some_bind]
    rfl

/-- C1: for all sets of URL strings `current` and `previous`,
`find_url_differences` returns the pair with `new_urls = current − previous`
and `deleted_urls = previous − current`; in particular `diff(A,A) = (∅, ∅)`
and `diff(A,∅) = (A, ∅)`.  The function is a total Lean function on
`Finset String`, hence total and side-effect-free on every pair of valid
(possibly empty) sets. -/
theorem c1_find_url_differences (A B : Finset String) :
    (find_url_differences A B).new_urls = A \ B ∧
    (find_url_differences A B).deleted_urls = B \ A ∧
    find_url_differences A A = ⟨∅, ∅⟩ ∧
    (find_url_differences A ∅).new_urls = A ∧
    (find_url_differences A ∅).deleted_urls = ∅ := by
  refine ⟨rfl, rfl, ?_, ?_, ?_⟩
  · simp [find_url_differences]
  · simp [find_url_differences]
  · simp [find_url_differences]

/-- C4: `load_previous_urls` never raises past its boundary (it is a total
function); on any parse failure (a raised read error, or a frame without a
`url` column, whose access raises `KeyError`) it returns the empty set, and
on a well-formed `urls.csv` it returns exactly the set of values in the
`url` column. -/
theorem c4_load_previous_urls :
    (∀ msg, load_previous_urls (Except.error msg) = ∅) ∧
    (∀ df, getColumn df "url" = none → load_previous_urls (Except.ok df) = ∅) ∧
    (∀ df col, getColumn df "url" = some col →
      load_previous_urls (Except.ok df) = col.toFinset) := by
  refine ⟨fun msg => rfl, ?_, ?_⟩
  · intro df h
    simp [load_previous_urls, h]
  · intro df col h
    simp [load_previous_urls, h]

/-- Witness for C4 at a concrete well-formed frame and a concrete failure. -/
theorem c4_load_previous_urls_witness :
    load_previous_urls (Except.ok
        { columns := ["url", "source"]
          rows := [["https://a/1", "https://a/s.xml"], ["https://a/2", "https://a/s.xml"]] })
      = (["https://a/1", "https://a/2"] : List String).toFinset :=
  c4_load_previous_urls.2.2
    { columns := ["url", "source"]
      rows := [["https://a/1", "https://a/s.xml"], ["https://a/2", "https://a/s.xml"]] }
    ["https://a/1", "https://a/2"] (by decide)

/-- C7: writing a non-empty URL map with `save_urls_csv` and reading the
file back with `load_previous_urls` yields exactly the set of the map's
keys. -/
theorem c7_urls_csv_roundtrip (url_map : List (String × String))
    (h : url_map ≠ []) :
    ∃ df, save_urls_csv url_map = some df ∧
      load_previous_urls (Except.ok df) = (url_map.map Prod.fst).toFinset := by
  have hne : url_map.isEmpty = false := by
    cases url_map with
    | nil => exact absurd rfl h
    | cons a l => rfl
  refine ⟨_, by rw [save_urls_csv, hne]; rfl, ?_⟩
  simp only [load_previous_urls, getColumn]
  rw [show (["url", "source"].findIdx? (· == "url")) = some 0 from rfl]
  simp only [Option.map_some, List.map_map]
  rfl

/-- Witness for C7: the spec's example map round-trips to the singleton
key set. -/
theorem c7_urls_csv_roundtrip_witness :
    ∃ df, save_urls_csv [("https://a/1", "https://a/sitemap.xml")] = some df ∧
      load_previous_urls (Except.ok df) = ({"https://a/1"} : Finset String) := by
  obtain ⟨df, h1, h2⟩ :=
    c7_urls_csv_roundtrip [("https://a/1", "https://a/sitemap.xml")] (by decide)
  exact ⟨df, h1, by rw [h2]; rfl⟩

/-- C8 (amended): for every valid local civil datetime whose year lies in
1000..9999 — which covers every epoch-seconds value the tool can store,
all run timestamps being current epoch seconds — the rendered timestamp
matches `\x7bd{1,2}/\x7bd{1,2}/\x7bd{4} \x7bd{1,2}:\x7bd{2}:\x7bd{2}(am|pm)`
with no leading zeros on month, day, or hour and a lowercase meridiem
suffix, and all three formatting branches (Unix `%-`, Windows `%#`, manual
stripping) produce the same string; `format_timestamp` itself renders via
the Unix branch after the library's epoch-to-local-civil conversion.
Outside the 1000..9999 year range the original claim fails (see the
counterexample). -/
theorem c8_format_timestamp_shape (dt : CivilDT) (hv : dt.Valid)
    (hy1 : 1000 ≤ dt.year) (hy2 : dt.year ≤ 9999) :
    matchesShape (formatTimestampUnix dt) = true ∧
    formatTimestampWindows dt = formatTimestampUnix dt ∧
    formatTimestampFallback dt = formatTimestampUnix dt ∧
    (∀ tz s n, pyInt s = some n →
      format_timestamp tz s = some (String.mk (formatTimestampUnix (epochToCivil tz n)))) := by
  obtain ⟨hm1, hm2, hd1, hd2, hhr, hmi, hse⟩ := hv
  refine ⟨matchesShape_format dt ⟨hm1, hm2, hd1, hd2, hhr, hmi, hse⟩ hy1 hy2, rfl, ?_, ?_⟩
  · unfold formatTimestampFallback formatTimestampUnix
    rw [fallback_date_eq dt.month dt.day dt.year hm1 hd1 (by omega)]
    rw [fallback_time_eq dt.hour dt.minute dt.second]
  · intro tz s n hs
    simp [format_timestamp, hs]

/-- Witness for C8 at the spec's example date 4/22/2025 10:39:23am. -/
theorem c8_format_timestamp_shape_witness :
    matchesShape (formatTimestampUnix ⟨2025, 4, 22, 10, 39, 23⟩) = true ∧
    formatTimestampFallback ⟨2025, 4, 22, 10, 39, 23⟩
      = formatTimestampUnix ⟨2025, 4, 22, 10, 39, 23⟩ :=
  ⟨(c8_format_timestamp_shape ⟨2025, 4, 22, 10, 39, 23⟩ (by decide) (by decide) (by decide)).1,
   (c8_format_timestamp_shape ⟨2025, 4, 22, 10, 39, 23⟩ (by decide) (by decide) (by decide)).2.2.1⟩

/-- Counterexample to C8 as stated: the claim quantifies over every
integer epoch-seconds value, but at epoch `-30641760000` (the local civil
datetime 999-01-01 00:00:00 in a UTC-offset-zero zone, a valid `datetime`
value) `format_timestamp` renders a three-digit year, so the output does
not match the claimed `\x7bd{4}` year shape. -/
theorem c8_format_timestamp_shape_counterexample :
    CivilDT.Valid ⟨999, 1, 1, 0, 0, 0⟩ ∧
    epochToCivil 0 (-30641760000) = ⟨999, 1, 1, 0, 0, 0⟩ ∧
    format_timestamp 0 "-30641760000" = some "1/1/999 12:00:00am" ∧
    matchesShape ("1/1/999 12:00:00am".data) = false := by
  refine ⟨by decide, by decide, by decide, by decide⟩

/-- C10: `find_latest_previous_run` excludes the current run by exact
string equality while candidacy is by integer parseability, so a
directory named `"0300"` denoting the same integer as the current
timestamp `"300"` is not excluded and is returned as the previous run. -/
theorem c10_same_value_different_spelling_not_excluded :
    find_latest_previous_run [⟨"200", true⟩, ⟨"0300", true⟩] "300" = some "0300" ∧
    pyInt "0300" = some 300 ∧
    pyInt "300" = some 300 ∧
    "0300" ≠ "300" := by
  refine ⟨by decide, by decide, by decide, by decide⟩

/-- C2: `find_latest_previous_run` considers exactly the immediate
subdirectories whose name parses as an integer (non-numeric names are
skipped without error), excludes the entry whose name equals the current
run's timestamp, and returns a candidate of numerically greatest name, or
`none` when no candidate remains; on `"100","200","abc","300"` with
current timestamp `"300"` it returns `"200"`, and with zero numeric
subdirectories it returns `none`. -/
theorem c2_find_latest_previous_run (entries : List DirEnt) (timestamp : String) :
    (∀ e, e ∈ runCandidates entries timestamp ↔
      (e ∈ entries ∧ e.isDir = true ∧ (pyInt e.name).isSome = true ∧
        e.name ≠ timestamp)) ∧
    (find_latest_previous_run entries timestamp = none ↔
      runCandidates entries timestamp = []) ∧
    (∀ r, find_latest_previous_run entries timestamp = some r →
      ∃ e ∈ runCandidates entries timestamp, e.name = r ∧
        ∀ e2 ∈ runCandidates entries timestamp, runKey e2 ≤ runKey e) ∧
    find_latest_previous_run
      [⟨"100", true⟩, ⟨"200", true⟩, ⟨"abc", true⟩, ⟨"300", true⟩] "300"
      = some "200" ∧
    find_latest_previous_run [⟨"abc", true⟩, ⟨"reports", true⟩] "300" = none := by
  have hle_total : ∀ a b : DirEnt, decide (runKey a ≤ runKey b) = true ∨
      decide (runKey b ≤ runKey a) = true := by
    intro a b
    rcases Int.le_total (runKey a) (runKey b) with h | h
    · left; simpa using h
    · right; simpa using h
  have hle_trans : ∀ a b c : DirEnt, decide (runKey a ≤ runKey b) = true →
      decide (runKey b ≤ runKey c) = true → decide (runKey a ≤ runKey c) = true := by
    intro a b c h1 h2
    simp only [decide_eq_true_eq] at h1 h2 ⊢
    omega
  refine ⟨?_, ?_, ?_, by decide, by decide⟩
  · intro e
    simp only [runCandidates, List.mem_filter, decide_eq_true_eq]
    tauto
  · unfold find_latest_previous_run
    rw [Option.map_eq_none']
    rw [List.getLast?_eq_none_iff]
    constructor
    · intro h
      have := length_sortLe (fun a b => decide (runKey a ≤ runKey b))
        (runCandidates entries timestamp)
      rw [h] at this
      exact List.length_eq_zero.mp this.symm
    · intro h
      rw [h]
      rfl
  · intro r hr
    unfold find_latest_previous_run at hr
    rcases Option.map_eq_some'.mp hr with ⟨last, hlast, hname⟩
    have hne : sortLe (fun a b => decide (runKey a ≤ runKey b))
        (runCandidates entries timestamp) ≠ [] := by
      intro hnil
      rw [hnil] at hlast
      exact Option.noConfusion hlast
    have hgl := List.getLast?_eq_getLast _ hne
    rw [hgl] at hlast
    have hlast2 : last = (sortLe (fun a b => decide (runKey a ≤ runKey b))
        (runCandidates entries timestamp)).getLast hne := by
      exact (Option.some.injEq _ _ ▸ hlast).symm
    refine ⟨last, ?_, hname, ?_⟩
    · rw [hlast2]
      exact (mem_sortLe _ _ _).mp (List.getLast_mem hne)
    · intro e2 he2
      have hp := pairwise_sortLe (fun a b => decide (runKey a ≤ runKey b))
        hle_total hle_trans (runCandidates entries timestamp)
      have hmem : e2 ∈ sortLe (fun a b => decide (runKey a ≤ runKey b))
          (runCandidates entries timestamp) := (mem_sortLe _ _ _).mpr he2
      have := @pairwise_le_getLast DirEnt (fun a b => decide (runKey a ≤ runKey b))
        (fun a => by simp) _ hne hp e2 hmem
      rw [← hlast2] at this
      simpa using this

/-- Witness for C2: the maximum-candidate clause instantiated on the
spec's example directory listing. -/
theorem c2_find_latest_previous_run_witness :
    ∃ e ∈ runCandidates
        [⟨"100", true⟩, ⟨"200", true⟩, ⟨"abc", true⟩, ⟨"300", true⟩] "300",
      e.name = "200" ∧
      ∀ e2 ∈ runCandidates
          [⟨"100", true⟩, ⟨"200", true⟩, ⟨"abc", true⟩, ⟨"300", true⟩] "300",
        runKey e2 ≤ runKey e :=
  (c2_find_latest_previous_run
    [⟨"100", true⟩, ⟨"200", true⟩, ⟨"abc", true⟩, ⟨"300", true⟩] "300").2.2.1
    "200" (by decide)

theorem dictLookup_cons (p : String × String) (d : List (String × String)) (x : String) :
    dictLookup (p :: d) x = if p.1 = x then some p.2 else dictLookup d x := by
  by_cases h : p.1 = x
  · rw [if_pos h]
    unfold dictLookup
    rw [List.find?_cons_of_pos _ (by simpa using h)]
    rfl
  · rw [if_neg h]
    unfold dictLookup
    rw [List.find?_cons_of_neg _ (by simpa using h)]

theorem dictLookup_update_map (d : List (String × String)) (k v x : String) :
    dictLookup (d.map (fun p => if p.1 = k then (k, v) else p)) x
      = if x = k then (if d.any (fun p => p.1 = k) = true then some v else none)
        else dictLookup d x := by
  induction d with
  | nil =>
    by_cases hxk : x = k <;> simp [dictLookup, hxk]
  | cons p d ih =>
    rw [List.map_cons]
    by_cases hpk : p.1 = k
    · rw [if_pos hpk, dictLookup_cons]
      by_cases hxk : x = k
      · rw [if_pos (show (k, v).1 = x from hxk.symm)]
        rw [if_pos hxk]
        rw [show ((p :: d).any fun p => p.1 = k) = true from
          List.any_eq_true.mpr ⟨p, by simp, by simpa using hpk⟩]
        simp
      · rw [if_neg (show ¬ (k, v).1 = x from fun h => hxk h.symm)]
        rw [ih, if_neg hxk, if_neg hxk, dictLookup_cons]
        rw [if_neg (show ¬ p.1 = x from by rw [hpk]; exact fun h => hxk h.symm)]
    · rw [if_neg hpk, dictLookup_cons, dictLookup_cons]
      have hany : ((p :: d).any fun p => p.1 = k)
          = (d.any fun p => p.1 = k) := by
        simp [List.any_cons, hpk]
      by_cases hpx : p.1 = x
      · rw [if_pos hpx, if_pos hpx]
        have hxk : ¬ x = k := by
          intro hx
          exact hpk (by rw [hpx, hx])
        rw [if_neg hxk]
      · rw [if_neg hpx, if_neg hpx, ih, hany]

theorem dictLookup_none_of_no_key (d : List (String × String)) (k : String)
    (h : (d.any fun p => p.1 = k) = false) :
    dictLookup d k = none := by
  induction d with
  | nil => rfl
  | cons p d ih =>
    rw [List.any_cons] at h
    rcases Bool.or_eq_false_iff.mp h with ⟨h1, h2⟩
    rw [dictLookup_cons, if_neg (by simpa using h1)]
    exact ih h2

theorem dictLookup_append_single (d : List (String × String)) (k v x : String) :
    dictLookup (d ++ [(k, v)]) x
      = (dictLookup d x).or (if k = x then some v else none) := by
  induction d with
  | nil =>
    by_cases h : k = x <;> simp [dictLookup, Option.or, h]
  | cons p d ih =>
    rw [List.cons_append, dictLookup_cons, dictLookup_cons]
    by_cases hpx : p.1 = x
    · rw [if_pos hpx, if_pos hpx]
      rfl
    · rw [if_neg hpx, if_neg hpx, ih]

theorem dictLookup_insert (d : List (String × String)) (k v x : String) :
    dictLookup (dictInsert d k v) x = if x = k then some v else dictLookup d x := by
  by_cases hany : (d.any fun p => p.1 = k) = true
  · rw [dictInsert, if_pos hany, dictLookup_update_map, hany]
    by_cases hxk : x = k <;> simp [hxk]
  · rw [dictInsert, if_neg hany, dictLookup_append_single]
    by_cases hxk : x = k
    · subst hxk
      rw [dictLookup_none_of_no_key d x (Bool.not_eq_true _ ▸ hany)]
      simp [Option.or]
    · rw [if_neg (fun h => hxk h.symm), if_neg hxk]
      cases dictLookup d x <;> simp [Option.or]

theorem dictInsert_keys (d : List (String × String)) (k v : String) :
    (dictInsert d k v).map Prod.fst
      = if (d.any fun p => p.1 = k) = true then d.map Prod.fst
        else d.map Prod.fst ++ [k] := by
  by_cases hany : (d.any fun p => p.1 = k) = true
  · rw [dictInsert, if_pos hany, if_pos hany, List.map_map]
    refine List.map_congr_left ?_
    intro p _
    by_cases hpk : p.1 = k <;> simp [hpk]
  · rw [dictInsert, if_neg hany, if_neg hany, List.map_append]
    rfl

theorem dictInsert_keys_nodup (d : List (String × String)) (k v : String)
    (h : (d.map Prod.fst).Nodup) :
    ((dictInsert d k v).map Prod.fst).Nodup := by
  rw [dictInsert_keys]
  by_cases hany : (d.any fun p => p.1 = k) = true
  · rw [if_pos hany]
    exact h
  · rw [if_neg hany]
    rw [List.nodup_append]
    refine ⟨h, List.nodup_singleton k, ?_⟩
    intro x hx hxk
    have hxk2 : x = k := by simpa using hxk
    subst hxk2
    rcases List.mem_map.mp hx with ⟨p, hp, hpk⟩
    exact hany (List.any_eq_true.mpr ⟨p, hp, by simpa using hpk⟩)

theorem dictLookup_foldl_insert (P : List (String × String)) :
    ∀ (d : List (String × String)) (k : String),
      dictLookup (P.foldl (fun d kv => dictInsert d kv.1 kv.2) d) k
        = ((P.filter (fun kv => kv.1 = k)).getLast?.map (fun kv => kv.2)).or
            (dictLookup d k) := by
  induction P with
  | nil =>
    intro d k
    rfl
  | cons kv P ih =>
    intro d k
    rw [List.foldl_cons, ih]
    by_cases hk : kv.1 = k
    · rw [List.filter_cons_of_pos (by simpa using hk)]
      cases hfp : P.filter (fun kv => kv.1 = k) with
      | nil =>
        rw [dictLookup_insert, if_pos hk.symm]
        rfl
      | cons q Q =>
        rw [List.getLast?_cons_cons]
        have hs : ((q :: Q).getLast? ) = some ((q :: Q).getLast (by simp)) :=
          List.getLast?_eq_getLast _ (by simp)
        rw [hs]
        rfl
    · rw [List.filter_cons_of_neg (by simpa using hk)]
      rw [dictLookup_insert, if_neg (fun h => hk h.symm)]

theorem dictLookup_keys_nodup_foldl (P : List (String × String)) :
    ∀ d, ((d.map Prod.fst).Nodup) →
      (((P.foldl (fun d kv => dictInsert d kv.1 kv.2) d)).map Prod.fst).Nodup := by
  induction P with
  | nil => intro d h; exact h
  | cons kv P ih =>
    intro d h
    rw [List.foldl_cons]
    exact ih _ (dictInsert_keys_nodup d kv.1 kv.2 h)

theorem dictLookup_isSome_iff (d : List (String × String)) (x : String) :
    (dictLookup d x).isSome = true ↔ x ∈ d.map Prod.fst := by
  induction d with
  | nil => simp [dictLookup]
  | cons p d ih =>
    rw [dictLookup_cons]
    by_cases hpx : p.1 = x
    · simp [hpx]
    · rw [if_neg hpx]
      simp only [List.map_cons, List.mem_cons, ih]
      constructor
      · intro h; right; exact h
      · intro h
        rcases h with h | h
        · exact absurd h.symm hpx
        · exact h

theorem pairs_filter_getLast (k : String) (nodes : List SitemapNode) :
    ((nodes.flatMap fun node => node.pages.map fun page => (page, node.url)).filter
        (fun kv => kv.1 = k)).getLast?.map (fun kv => kv.2)
      = ((nodes.filter (fun n => decide (k ∈ n.pages))).getLast?).map
          (fun n => n.url) := by
  induction nodes using List.reverseRecOn with
  | nil => rfl
  | append_singleton ns n ih =>
    rw [List.flatMap_append, List.filter_append, List.filter_append]
    have hB : (([n] : List SitemapNode).flatMap
          (fun node => node.pages.map fun page => (page, node.url))).filter
        (fun kv => kv.1 = k)
        = (n.pages.filter (fun p => p = k)).map (fun p => (p, n.url)) := by
      simp only [List.flatMap_cons, List.flatMap_nil, List.append_nil]
      rw [List.filter_map]
      rfl
    rw [hB]
    by_cases hmem : k ∈ n.pages
    · rw [List.filter_cons_of_pos (by simpa using hmem)]
      simp only [List.filter_nil]
      rw [List.getLast?_concat]
      have hne : n.pages.filter (fun p => p = k) ≠ [] := by
        intro hnil
        have := List.filter_eq_nil_iff.mp hnil k hmem
        simp at this
      have hne2 : (n.pages.filter (fun p => p = k)).map (fun p => (p, n.url)) ≠ [] := by
        simpa using hne
      rw [List.getLast?_append_of_ne_nil _ hne2]
      rw [List.getLast?_map]
      rw [List.getLast?_eq_getLast _ hne]
      rfl
    · rw [List.filter_cons_of_neg (by simpa using hmem)]
      simp only [List.filter_nil]
      have hnil : n.pages.filter (fun p => p = k) = [] := by
        rw [List.filter_eq_nil_iff]
        intro p hp hpk
        exact hmem (by
          have : p = k := by simpa using hpk
          rw [← this]; exact hp)
      rw [hnil]
      simp only [List.map_nil, List.append_nil]
      exact ih

/-- C9: `extract_url_map` returns a map whose keys are exactly the union
of the page URLs of all nodes; when a page URL occurs under several
nodes, the recorded value is the URL of the last node (in input order)
containing it; and the keys are unique by construction. -/
theorem c9_extract_url_map (nodes : List SitemapNode) :
    (∀ k, dictLookup (extract_url_map nodes) k
      = ((nodes.filter (fun n => decide (k ∈ n.pages))).getLast?).map
          (fun n => n.url)) ∧
    (∀ k, k ∈ (extract_url_map nodes).map Prod.fst ↔
      ∃ n ∈ nodes, k ∈ n.pages) ∧
    ((extract_url_map nodes).map Prod.fst).Nodup := by
  have hmain : ∀ k, dictLookup (extract_url_map nodes) k
      = ((nodes.filter (fun n => decide (k ∈ n.pages))).getLast?).map
          (fun n => n.url) := by
    intro k
    unfold extract_url_map
    rw [dictLookup_foldl_insert]
    rw [show dictLookup [] k = none from rfl]
    rw [pairs_filter_getLast k nodes]
    cases ((nodes.filter (fun n => decide (k ∈ n.pages))).getLast?).map
        (fun n => n.url) <;> simp [Option.or]
  refine ⟨hmain, ?_, ?_⟩
  · intro k
    rw [← dictLookup_isSome_iff, hmain]
    rw [Option.isSome_map']
    rw [List.getLast?_isSome]
    constructor
    · intro h
      have hne := h
      rcases List.exists_mem_of_ne_nil _ hne with ⟨n, hn⟩
      rcases List.mem_filter.mp hn with ⟨hn1, hn2⟩
      exact ⟨n, hn1, by simpa using hn2⟩
    · intro ⟨n, hn, hkn⟩
      intro hnil
      have := List.filter_eq_nil_iff.mp hnil n hn
      simp [hkn] at this
  · unfold extract_url_map
    exact dictLookup_keys_nodup_foldl _ [] (by simp)

/-- C3: `save_diff_csv` writes the rows of `new_urls` (status `new`)
before the rows of `deleted_urls` (status `deleted`), each group sorted
lexicographically by URL; the header row is written even when both sets
are empty (the theorem covers every `UrlDiff`, the empty one included);
and the row sequence is determined by the input sets alone. -/
theorem c3_save_diff_csv (tz : Int) (ud : UrlDiff) (pT cT : String)
    (np nc : Int) (hp : pyInt pT = some np) (hc : pyInt cT = some nc) :
    ∃ df, save_diff_csv tz ud pT cT = some df ∧
      df.columns = ["status", "url", "previous_scan_time", "current_scan_time"] ∧
      df.rows = df.rows.filter (fun r => r.getD 0 "" == "new")
        ++ df.rows.filter (fun r => r.getD 0 "" == "deleted") ∧
      (df.rows.filter (fun r => r.getD 0 "" == "new")).map (fun r => r.getD 1 "")
        = sortedUrls ud.new_urls ∧
      (df.rows.filter (fun r => r.getD 0 "" == "deleted")).map (fun r => r.getD 1 "")
        = sortedUrls ud.deleted_urls ∧
      List.Sorted (· ≤ ·) (sortedUrls ud.new_urls) ∧
      List.Sorted (· ≤ ·) (sortedUrls ud.deleted_urls) ∧
      (∀ u, u ∈ sortedUrls ud.new_urls ↔ u ∈ ud.new_urls) ∧
      (∀ u, u ∈ sortedUrls ud.deleted_urls ↔ u ∈ ud.deleted_urls) ∧
      (∀ ud2 : UrlDiff, ud2.new_urls = ud.new_urls →
        ud2.deleted_urls = ud.deleted_urls →
        save_diff_csv tz ud2 pT cT = save_diff_csv tz ud pT cT) := by
  have hfp : format_timestamp tz pT
      = some ⟨formatTimestampUnix (epochToCivil tz np)⟩ := by
    simp [format_timestamp, hp]
  have hfc : format_timestamp tz cT
      = some ⟨formatTimestampUnix (epochToCivil tz nc)⟩ := by
    simp [format_timestamp, hc]
  have hsave : save_diff_csv tz ud pT cT = some
      { columns := ["status", "url", "previous_scan_time", "current_scan_time"]
        rows :=
          (sortedUrls ud.new_urls).map
            (fun url => [UrlStatus.NEW.value, url,
              ⟨formatTimestampUnix (epochToCivil tz np)⟩,
              ⟨formatTimestampUnix (epochToCivil tz nc)⟩])
          ++ (sortedUrls ud.deleted_urls).map
            (fun url => [UrlStatus.DELETED.value, url,
              ⟨formatTimestampUnix (epochToCivil tz np)⟩,
              ⟨formatTimestampUnix (epochToCivil tz nc)⟩]) } := by
    rw [save_diff_csv, hfp, hfc]
  refine ⟨_, hsave, rfl, ?_, ?_, ?_, Finset.sort_sorted _ _, Finset.sort_sorted _ _,
    fun u => Finset.mem_sort _, fun u => Finset.mem_sort _, ?_⟩
  · simp [List.filter_append, List.filter_map, Function.comp_def, UrlStatus.value]
  · simp [List.filter_append, List.filter_map, Function.comp_def, UrlStatus.value]
  · simp [List.filter_append, List.filter_map, Function.comp_def, UrlStatus.value]
  · intro ud2 h1 h2
    have : ud2 = ud := by
      cases ud2
      cases ud
      simp only at h1 h2
      rw [h1, h2]
    rw [this]

/-- Witness for C3 on an unsorted concrete input set with an empty
deleted set. -/
theorem c3_save_diff_csv_witness :
    ∃ df, save_diff_csv 0 ⟨{"https://a/b", "https://a/a"}, ∅⟩ "100" "200" = some df ∧
      df.columns = ["status", "url", "previous_scan_time", "current_scan_time"] ∧
      df.rows = df.rows.filter (fun r => r.getD 0 "" == "new")
        ++ df.rows.filter (fun r => r.getD 0 "" == "deleted") := by
  obtain ⟨df, h1, h2, h3, _⟩ :=
    c3_save_diff_csv 0 ⟨{"https://a/b", "https://a/a"}, ∅⟩ "100" "200" 100 200
      (by decide) (by decide)
  exact ⟨df, h1, h2, h3⟩

theorem aggStep_some (tz : Int) (acc : Aggregate) (e : RunDir)
    (h1 : (pyInt e.name).isSome = true)
    (h2 : (getColumn (read_diff_data e) "status").isSome = true) :
    aggStep tz acc e = some
      { runs := acc.runs ++ [mkRunData tz e]
        total_added := acc.total_added + countStatus e "new"
        total_deleted := acc.total_deleted + countStatus e "deleted"
        chart_timestamps := acc.chart_timestamps
          ++ [(mkRunData tz e).formatted_timestamp]
        chart_added := acc.chart_added ++ [countStatus e "new"]
        chart_deleted := acc.chart_deleted ++ [countStatus e "deleted"] } := by
  rcases Option.isSome_iff_exists.mp h1 with ⟨n, hn⟩
  rcases Option.isSome_iff_exists.mp h2 with ⟨col, hcol⟩
  rw [aggStep, hn, hcol]
  have hcount : ∀ s, countStatus e s = (col.filter (fun x => x = s)).length := by
    intro s
    rw [countStatus, hcol]
    rfl
  simp only [mkRunData, hcount, hn]
  rfl

theorem aggLoop_spec (tz : Int) :
    ∀ (l : List RunDir) (acc : Aggregate),
      (∀ e ∈ l, (pyInt e.name).isSome = true ∧
        (getColumn (read_diff_data e) "status").isSome = true) →
      aggLoop tz acc l = some
        { runs := acc.runs ++ l.map (mkRunData tz)
          total_added := acc.total_added
            + (l.map (fun e => countStatus e "new")).sum
          total_deleted := acc.total_deleted
            + (l.map (fun e => countStatus e "deleted")).sum
          chart_timestamps := acc.chart_timestamps
            ++ l.map (fun e => (mkRunData tz e).formatted_timestamp)
          chart_added := acc.chart_added ++ l.map (fun e => countStatus e "new")
          chart_deleted := acc.chart_deleted
            ++ l.map (fun e => countStatus e "deleted") } := by
  intro l
  induction l with
  | nil =>
    intro acc _
    simp only [List.map_nil, List.append_nil, List.sum_nil, Nat.add_zero]
    rfl
  | cons e l ih =>
    intro acc h
    rw [aggLoop, aggStep_some tz acc e (h e (by simp)).1 (h e (by simp)).2,
      Option.some_bind]
    rw [ih _ (fun e2 he2 => h e2 (by simp [he2]))]
    simp only [Option.some.injEq, Aggregate.mk.injEq]
    refine ⟨?_, by simp [List.sum_cons]; omega, by simp [List.sum_cons]; omega, ?_, ?_, ?_⟩
    · simp [List.append_assoc]
    · simp [List.append_assoc]
    · simp [List.append_assoc]
    · simp [List.append_assoc]

/-- C5: `aggregate_diff_data` produces one per-run entry per input pair
with `new_count`/`deleted_count` equal to the number of rows with the
respective status, totals equal to the sums over all pairs, and one
chart-series entry per pair (zero-row diffs included); `find_all_diffs`
admits only directories that have a diff file, so runs without one never
enter the input; the (2/1), (0/0), (1/3) example yields totals 3 and 4
and three chart entries. -/
theorem c5_aggregate_diff_data (tz : Int) (l : List RunDir)
    (h : ∀ e ∈ l, (pyInt e.name).isSome = true ∧
      (getColumn (read_diff_data e) "status").isSome = true) :
    (∃ agg, aggregate_diff_data tz l = some agg ∧
      agg.runs.length = l.length ∧
      agg.runs.map (fun r => r.new_count) = l.map (fun e => countStatus e "new") ∧
      agg.runs.map (fun r => r.deleted_count)
        = l.map (fun e => countStatus e "deleted") ∧
      agg.runs.map (fun r => r.timestamp) = l.map (fun e => e.name) ∧
      agg.total_added = (l.map (fun e => countStatus e "new")).sum ∧
      agg.total_deleted = (l.map (fun e => countStatus e "deleted")).sum ∧
      agg.chart_timestamps.length = l.length ∧
      agg.chart_added = l.map (fun e => countStatus e "new") ∧
      agg.chart_deleted = l.map (fun e => countStatus e "deleted")) ∧
    (∀ entries e, e ∈ find_all_diffs entries →
      e.isDir = true ∧ e.hasDiff = true) ∧
    (aggregate_diff_data 0 exampleRuns).map (fun a => a.total_added) = some 3 ∧
    (aggregate_diff_data 0 exampleRuns).map (fun a => a.total_deleted) = some 4 ∧
    (aggregate_diff_data 0 exampleRuns).map (fun a => a.chart_added.length)
      = some 3 ∧
    (aggregate_diff_data 0 exampleRuns).map (fun a => a.runs.length) = some 3 := by
  refine ⟨?_, ?_, by decide, by decide, by decide, by decide⟩
  · rw [aggregate_diff_data, aggLoop_spec tz l initAgg h]
    refine ⟨_, rfl, ?_, ?_, ?_, ?_, by simp [initAgg], by simp [initAgg], ?_, ?_, ?_⟩
    · simp [initAgg]
    · simp only [initAgg, List.nil_append, List.map_map]
      exact List.map_congr_left (fun e _ => rfl)
    · simp only [initAgg, List.nil_append, List.map_map]
      exact List.map_congr_left (fun e _ => rfl)
    · simp only [initAgg, List.nil_append, List.map_map]
      exact List.map_congr_left (fun e _ => rfl)
    · simp [initAgg]
    · simp [initAgg]
    · simp [initAgg]
  · intro entries e he
    rw [find_all_diffs] at he
    have h2 := List.mem_filter.mp he
    have h3 := List.mem_filter.mp h2.1
    exact ⟨h3.2, h2.2⟩

/-- Witness for C5 at the three-run example. -/
theorem c5_aggregate_diff_data_witness :
    ∃ agg, aggregate_diff_data 0 exampleRuns = some agg ∧
      agg.runs.length = exampleRuns.length ∧
      agg.runs.map (fun r => r.new_count)
        = exampleRuns.map (fun e => countStatus e "new") := by
  obtain ⟨⟨agg, h1, h2, h3, _⟩, _⟩ :=
    c5_aggregate_diff_data 0 exampleRuns (by decide)
  exact ⟨agg, h1, h2, h3⟩

theorem digitsValue_acc (l : List Char) :
    ∀ a : Nat, l.foldl (fun a c => a * 10 + (c.toNat - 48)) a
      = a * 10 ^ l.length + digitsValue l := by
  induction l with
  | nil => intro a; simp [digitsValue]
  | cons c r ih =>
    intro a
    have h1 : digitsValue (c :: r) = (c.toNat - 48) * 10 ^ r.length + digitsValue r := by
      rw [digitsValue, List.foldl_cons, ih (0 * 10 + (c.toNat - 48))]
      simp
    rw [List.foldl_cons, ih (a * 10 + (c.toNat - 48)), h1]
    simp only [List.length_cons]
    ring

theorem digitsValue_cons (c : Char) (r : List Char) :
    digitsValue (c :: r) = (c.toNat - 48) * 10 ^ r.length + digitsValue r := by
  rw [digitsValue, List.foldl_cons, digitsValue_acc r (0 * 10 + (c.toNat - 48))]
  simp [digitsValue]

theorem isDigitCh_bounds (c : Char) (h : isDigitCh c = true) :
    48 ≤ c.toNat ∧ c.toNat ≤ 57 := by
  rw [isDigitCh, Bool.and_eq_true, decide_eq_true_eq, decide_eq_true_eq] at h
  exact h

theorem digitsValue_lt (l : List Char) (h : ∀ c ∈ l, isDigitCh c = true) :
    digitsValue l < 10 ^ l.length := by
  induction l with
  | nil => simp [digitsValue]
  | cons c r ih =>
    rw [digitsValue_cons]
    have hd : c.toNat - 48 ≤ 9 := by
      have := isDigitCh_bounds c (h c (by simp))
      omega
    have hr : digitsValue r < 10 ^ r.length := ih (fun x hx => h x (by simp [hx]))
    have hP : 0 < 10 ^ r.length := Nat.pos_pow_of_pos _ (by omega)
    calc (c.toNat - 48) * 10 ^ r.length + digitsValue r
        < (c.toNat - 48) * 10 ^ r.length + 10 ^ r.length := by omega
      _ = (c.toNat - 48 + 1) * 10 ^ r.length := by ring
      _ ≤ 10 * 10 ^ r.length := Nat.mul_le_mul_right _ (by omega)
      _ = 10 ^ (c :: r).length := by
          simp only [List.length_cons]
          ring

theorem pyStrLe_digitsValue_le :
    ∀ s t : List Char, s.length = t.length →
      (∀ c ∈ s, isDigitCh c = true) → (∀ c ∈ t, isDigitCh c = true) →
      pyStrLe s t = true → digitsValue s ≤ digitsValue t := by
  intro s
  induction s with
  | nil => intro t _ _ _ _; simp [digitsValue]
  | cons a s2 ih =>
    intro t hlen hs ht h
    cases t with
    | nil => simp at hlen
    | cons b t2 =>
      have hlen2 : s2.length = t2.length := by simpa using hlen
      rcases (pyStrLe_cons_iff a b s2 t2).mp h with hab | ⟨hab, hrec⟩
      · have hda : 48 ≤ a.toNat := (isDigitCh_bounds a (hs a (by simp))).1
        have hdb : b.toNat ≤ 57 := (isDigitCh_bounds b (ht b (by simp))).2
        rw [digitsValue_cons, digitsValue_cons, hlen2]
        have hvs : digitsValue s2 < 10 ^ s2.length :=
          digitsValue_lt s2 (fun x hx => hs x (by simp [hx]))
        rw [hlen2] at hvs
        have hstep : (a.toNat - 48) + 1 ≤ b.toNat - 48 := by omega
        refine Nat.le_of_lt ?_
        calc (a.toNat - 48) * 10 ^ t2.length + digitsValue s2
            < (a.toNat - 48) * 10 ^ t2.length + 10 ^ t2.length := by omega
          _ = ((a.toNat - 48) + 1) * 10 ^ t2.length := by ring
          _ ≤ (b.toNat - 48) * 10 ^ t2.length := Nat.mul_le_mul_right _ hstep
          _ ≤ (b.toNat - 48) * 10 ^ t2.length + digitsValue t2 := Nat.le_add_right _ _
      · rw [digitsValue_cons, digitsValue_cons, hlen2, hab]
        have := ih t2 hlen2 (fun x hx => hs x (by simp [hx]))
          (fun x hx => ht x (by simp [hx])) hrec
        omega

theorem aggLoop_sound (tz : Int) :
    ∀ (l : List RunDir) (acc agg : Aggregate), aggLoop tz acc l = some agg →
      agg.runs = acc.runs ++ l.map (mkRunData tz) ∧
      agg.chart_added = acc.chart_added ++ l.map (fun e => countStatus e "new") := by
  intro l
  induction l with
  | nil =>
    intro acc agg h
    have : acc = agg := by simpa [aggLoop] using h
    subst this
    simp
  | cons e l ih =>
    intro acc agg h
    rw [aggLoop] at h
    rcases Option.bind_eq_some.mp h with ⟨acc2, hstep, hrest⟩
    have hpy : (pyInt e.name).isSome = true := by
      cases hpy2 : pyInt e.name with
      | none => simp [aggStep, hpy2] at hstep
      | some n => rfl
    have hcol : (getColumn (read_diff_data e) "status").isSome = true := by
      cases hcol2 : getColumn (read_diff_data e) "status" with
      | none =>
        rcases Option.isSome_iff_exists.mp hpy with ⟨n, hn⟩
        simp [aggStep, hn, hcol2] at hstep
      | some col => rfl
    rw [aggStep_some tz acc e hpy hcol] at hstep
    have hacc2 := Option.some.injEq _ _ ▸ hstep
    rcases ih _ _ hrest with ⟨h1, h2⟩
    rw [h1, h2, ← hacc2]
    constructor <;> simp [List.append_assoc]

/-- C6 (amended): `find_all_diffs` enumerates runs in ascending
lexicographic order of directory name; the chart series follows that
enumeration order and the run listing of the index report is its exact
reverse (most recent first); and on name sets of equal digit length —
such as the 10-digit epoch timestamps the tool writes — lexicographic
order coincides with ascending numeric order.  For names of different
digit lengths the original numeric-order claim is false (see the
counterexample). -/
theorem c6_find_all_diffs_order (entries : List RunDir) :
    List.Pairwise (fun a b => pyStrLe a.name.data b.name.data = true)
      (find_all_diffs entries) ∧
    (∀ tz agg, aggregate_diff_data tz (find_all_diffs entries) = some agg →
      agg.runs.map (fun r => r.timestamp)
        = (find_all_diffs entries).map (fun e => e.name) ∧
      agg.chart_added
        = (find_all_diffs entries).map (fun e => countStatus e "new") ∧
      (generate_index_report_runs agg).map (fun r => r.timestamp)
        = ((find_all_diffs entries).map (fun e => e.name)).reverse) ∧
    (∀ L : Nat, (∀ e ∈ entries, e.name.data.length = L ∧
        (∀ c ∈ e.name.data, isDigitCh c = true)) →
      List.Pairwise
        (fun a b => digitsValue a.name.data ≤ digitsValue b.name.data)
        (find_all_diffs entries)) := by
  have hpair : List.Pairwise (fun a b => pyStrLe a.name.data b.name.data = true)
      (find_all_diffs entries) := by
    rw [find_all_diffs]
    refine List.Pairwise.filter _ (List.Pairwise.filter _ ?_)
    exact pairwise_sortLe (fun a b : RunDir => pyStrLe a.name.data b.name.data)
      (fun a b => pyStrLe_total a.name.data b.name.data)
      (fun a b c => pyStrLe_trans a.name.data b.name.data c.name.data) entries
  refine ⟨hpair, ?_, ?_⟩
  · intro tz agg h
    rcases aggLoop_sound tz (find_all_diffs entries) initAgg agg h with ⟨h1, h2⟩
    refine ⟨?_, ?_, ?_⟩
    · rw [h1]
      simp only [initAgg, List.nil_append, List.map_map]
      exact List.map_congr_left (fun e _ => rfl)
    · rw [h2]
      simp [initAgg]
    · rw [generate_index_report_runs, h1]
      simp only [initAgg, List.nil_append, List.map_reverse, List.map_map]
      congr 1
  · intro L hL
    have hmem : ∀ e ∈ find_all_diffs entries, e ∈ entries := by
      intro e he
      rw [find_all_diffs] at he
      exact (mem_sortLe _ _ _).mp (List.mem_filter.mp (List.mem_filter.mp he).1).1
    refine hpair.imp_of_mem ?_
    intro a b ha hb hab
    have hA := hL a (hmem a ha)
    have hB := hL b (hmem b hb)
    exact pyStrLe_digitsValue_le a.name.data b.name.data
      (by rw [hA.1, hB.1]) hA.2 hB.2 hab

/-- Witness for C6 on equal-length numeric names `"100","200","300"`. -/
theorem c6_find_all_diffs_order_witness :
    List.Pairwise
      (fun a b : RunDir => digitsValue a.name.data ≤ digitsValue b.name.data)
      (find_all_diffs exampleRuns) :=
  (c6_find_all_diffs_order exampleRuns).2.2 3 (by decide)

/-- Counterexample to C6 as stated: with directories named `"9"` and
`"10"` (different digit lengths), `find_all_diffs` enumerates `"10"`
before `"9"` — lexicographic, not ascending numeric, order. -/
theorem c6_find_all_diffs_order_counterexample :
    (find_all_diffs exampleTwoRuns).map (fun e => e.name) = ["10", "9"] ∧
    ¬ List.Pairwise (fun a b : String => digitsValue a.data ≤ digitsValue b.data)
      ((find_all_diffs exampleTwoRuns).map (fun e => e.name)) := by
  constructor
  · decide
  · decide
